import Mathlib

set_option maxRecDepth 100000

/-!
A shallow embedding of the phps_sms client (src/phps_sms/sms.py).

Text is modelled as `List Char` and byte strings as `List Nat`.  Pure
functions of the source are translated directly; the two stateful
operations (`SMS.add`, `SMS.send`) are modelled as functions over the
queue/state, and the network transport of `send` is abstracted by an
oracle mapping the index of each POST to its outcome.
-/

/-- Errors raised by the Python code.  The source uses a single exception
class `SMSError` carrying a message string, plus the built-in codec
errors; each constructor records which raise site fired:
`invalidNumber` is the `SMSError` built from the rejected number in
`_valid_tr_to`; `emptyMessage` is `SMSError('tr_txtmsg is empty.')`;
`messageTooLong` is `SMSError('tr_txtmsg is too long.')`; `noData` is
`SMSError('no data')`; `tooSoon` is the `SMSError` about the 3-minute
reservation window; `unicodeEncodeError` and `unicodeDecodeError` are
the built-in codec exceptions, which `SMSError` does not wrap. -/
inductive PyError where
  | invalidNumber (trTo : List Char)
  | emptyMessage
  | messageTooLong
  | noData
  | tooSoon
  | unicodeEncodeError
  | unicodeDecodeError
deriving DecidableEq, Repr

/-- Modelled from the spec: the fixed legacy East Asian text encoding
(`euc-kr`, the `SERVER_ENCODING` of the source) lives in the Python
standard library and is outside this repository.  Per the spec it "uses
1-3 bytes per character depending on script", injectively, with many
characters unencodable (Python raises `UnicodeEncodeError`).  The model
keeps exactly those properties: ASCII code points encode to one byte,
the Hangul-syllable block (U+AC00 to U+D7A3) to two bytes with a lead
byte in 128-171, the CJK-ideograph block (U+4E00 to U+9FFF) to three
bytes with lead byte 200, everything else fails. -/
def encChar (c : Char) : Option (List Nat) :=
  if c.toNat < 128 then some [c.toNat]
  else if 44032 ≤ c.toNat ∧ c.toNat ≤ 55203 then
    some [128 + (c.toNat - 44032) / 256, (c.toNat - 44032) % 256]
  else if 19968 ≤ c.toNat ∧ c.toNat ≤ 40959 then
    some [200, (c.toNat - 19968) / 256, (c.toNat - 19968) % 256]
  else none

/-- `text.encode(SERVER_ENCODING)`: the concatenation of the
per-character encodings, failing when any character is unencodable. -/
def encodeStr : List Char → Option (List Nat)
  | [] => some []
  | c :: cs =>
    match encChar c, encodeStr cs with
    | some e, some rest => some (e ++ rest)
    | _, _ => none

/-- `raw.decode(SERVER_ENCODING)`: the inverse of `encodeStr`.  A byte
below 128 stands alone, lead byte 200 opens a three-byte CJK sequence,
any other high lead byte opens a two-byte Hangul sequence. -/
def decodeEucKr : List Nat → Option (List Char)
  | [] => some []
  | b :: bs =>
    if b < 128 then
      match decodeEucKr bs with
      | some cs => some (Char.ofNat b :: cs)
      | none => none
    else if b = 200 then
      match bs with
      | b2 :: b3 :: rest =>
        if b2 < 256 ∧ b3 < 256 ∧ b2 * 256 + b3 < 20992 then
          match decodeEucKr rest with
          | some cs => some (Char.ofNat (19968 + (b2 * 256 + b3)) :: cs)
          | none => none
        else none
      | _ => none
    else
      match bs with
      | [] => none
      | b2 :: rest =>
        if b2 < 256 ∧ (b - 128) * 256 + b2 < 11172 then
          match decodeEucKr rest with
          | some cs => some (Char.ofNat (44032 + ((b - 128) * 256 + b2)) :: cs)
          | none => none
        else none

/-- Decode a list of encoded segments and concatenate them in order. -/
def decodeAll : List (List Nat) → Option (List Char)
  | [] => some []
  | s :: rest =>
    match decodeEucKr s, decodeAll rest with
    | some cs, some cs2 => some (cs ++ cs2)
    | _, _ => none

/-- Modelled from the spec: strict `utf-8` decoding as `bytes.decode`
performs it inside `_decode_response`; the codec itself is in the Python
standard library, outside this repository.  Returns `none` (Python:
`UnicodeDecodeError`) on malformed input: stray or missing continuation
bytes, overlong forms, surrogates, or code points beyond U+10FFFF. -/
def decodeUtf8 : List Nat → Option (List Char)
  | [] => some []
  | b :: bs =>
    if b < 128 then
      match decodeUtf8 bs with
      | some cs => some (Char.ofNat b :: cs)
      | none => none
    else if b < 192 then none
    else if b < 224 then
      match bs with
      | b1 :: rest =>
        if 128 ≤ b1 ∧ b1 < 192 ∧ 128 ≤ (b - 192) * 64 + (b1 - 128) then
          match decodeUtf8 rest with
          | some cs => some (Char.ofNat ((b - 192) * 64 + (b1 - 128)) :: cs)
          | none => none
        else none
      | [] => none
    else if b < 240 then
      match bs with
      | b1 :: b2 :: rest =>
        if 128 ≤ b1 ∧ b1 < 192 ∧ 128 ≤ b2 ∧ b2 < 192 ∧
            2048 ≤ (b - 224) * 4096 + (b1 - 128) * 64 + (b2 - 128) ∧
            ((b - 224) * 4096 + (b1 - 128) * 64 + (b2 - 128) < 55296 ∨
              57344 ≤ (b - 224) * 4096 + (b1 - 128) * 64 + (b2 - 128)) then
          match decodeUtf8 rest with
          | some cs =>
            some (Char.ofNat ((b - 224) * 4096 + (b1 - 128) * 64 + (b2 - 128)) :: cs)
          | none => none
        else none
      | _ => none
    else if b < 248 then
      match bs with
      | b1 :: b2 :: b3 :: rest =>
        if 128 ≤ b1 ∧ b1 < 192 ∧ 128 ≤ b2 ∧ b2 < 192 ∧ 128 ≤ b3 ∧ b3 < 192 ∧
            65536 ≤ (b - 240) * 262144 + (b1 - 128) * 4096 + (b2 - 128) * 64 + (b3 - 128) ∧
            (b - 240) * 262144 + (b1 - 128) * 4096 + (b2 - 128) * 64 + (b3 - 128) ≤ 1114111 then
          match decodeUtf8 rest with
          | some cs =>
            some (Char.ofNat
              ((b - 240) * 262144 + (b1 - 128) * 4096 + (b2 - 128) * 64 + (b3 - 128)) :: cs)
          | none => none
        else none
      | _ => none
    else none

/-- A value of the foreign (PHP-style) serialized-mapping format, as the
external `phpserialize.loads` produces it: byte strings (the only values
with a `decode` method) and the primitive values the decoder leaves
untouched. -/
inductive PhpVal where
  | bytes (bs : List Nat)
  | int (n : Int)
  | null
  | boolean (b : Bool)
deriving DecidableEq, Repr

/-- A key or value after `_decode_response`: either the UTF-8 text a
byte string was replaced with, or the untouched original value. -/
inductive DecodedVal where
  | str (cs : List Char)
  | raw (v : PhpVal)
deriving DecidableEq, Repr

/-- One decode attempt of `_decode_response` (lines 235-242): a byte
string is decoded as UTF-8 and the `UnicodeDecodeError` of an invalid
byte string is not caught; any other value has no `decode` attribute, so
the `AttributeError` is swallowed and the value kept unchanged. -/
def decodeVal (v : PhpVal) : Except PyError DecodedVal :=
  match v with
  | .bytes bs =>
    match decodeUtf8 bs with
    | some cs => .ok (.str cs)
    | none => .error .unicodeDecodeError
  | v => .ok (.raw v)

/-- The loop of `_decode_response` (lines 233-244) over the items of the
deserialized mapping, keys first. -/
def decodeItems : List (PhpVal × PhpVal) → Except PyError (List (DecodedVal × DecodedVal))
  | [] => .ok []
  | (k, v) :: rest =>
    match decodeVal k with
    | .error e => .error e
    | .ok dk =>
      match decodeVal v with
      | .error e => .error e
      | .ok dv =>
        match decodeItems rest with
        | .error e => .error e
        | .ok ds => .ok ((dk, dv) :: ds)

/-- ASCII whitespace, as Python's `str.strip` and the regex class `\s`
both treat it on this range: space, tab, newline, vertical tab, form
feed, carriage return.  The model restricts text to this range. -/
def isSpaceChar (c : Char) : Bool :=
  c.toNat = 32 || c.toNat = 9 || c.toNat = 10 || c.toNat = 11 || c.toNat = 12 || c.toNat = 13

/-- The regex class `\d` (ASCII range). -/
def isDigitChar (c : Char) : Bool :=
  48 ≤ c.toNat && c.toNat ≤ 57

/-- The separator class of `PATTERN_NUM`: whitespace, dash or dot. -/
def isSepChar (c : Char) : Bool :=
  isSpaceChar c || c.toNat = 45 || c.toNat = 46

/-- Python `str.strip()`: drop leading and trailing whitespace. -/
def pyStrip (s : List Char) : List Char :=
  ((s.dropWhile isSpaceChar).reverse.dropWhile isSpaceChar).reverse

/-- The tail of `PATTERN_NUM`: the anchored final group `\d{4}$`. -/
def matchNum2 (s : List Char) : Option (List Char) :=
  match s with
  | [a, b, c, d] =>
    if isDigitChar a && isDigitChar b && isDigitChar c && isDigitChar d then
      some [a, b, c, d]
    else none
  | _ => none

/-- `[\s\-\.]?(\d{4})$`: the optional separator is consumed greedily,
with the usual backtracking of the `re` engine on failure. -/
def matchSepNum2 (s : List Char) : Option (List Char) :=
  match s with
  | [] => none
  | c :: rest =>
    if isSepChar c then
      match matchNum2 rest with
      | some t => some t
      | none => matchNum2 s
    else matchNum2 s

/-- The three-digit alternative of the group `(\d{3,4})`, followed by
the rest of the pattern. -/
def matchNum1Try3 (s : List Char) : Option (List Char × List Char) :=
  match s with
  | a :: b :: c :: rest =>
    if isDigitChar a && isDigitChar b && isDigitChar c then
      match matchSepNum2 rest with
      | some n2 => some ([a, b, c], n2)
      | none => none
    else none
  | _ => none

/-- `(\d{3,4})[\s\-\.]?(\d{4})$`: the group is greedy, so four digits
are tried before falling back to three. -/
def matchNum1Rest (s : List Char) : Option (List Char × List Char) :=
  match s with
  | a :: b :: c :: d :: rest =>
    if isDigitChar a && isDigitChar b && isDigitChar c && isDigitChar d then
      match matchSepNum2 rest with
      | some n2 => some ([a, b, c, d], n2)
      | none => matchNum1Try3 s
    else matchNum1Try3 s
  | _ => matchNum1Try3 s

/-- `[\s\-\.]?(\d{3,4})[\s\-\.]?(\d{4})$`, the part of `PATTERN_NUM`
after the optional prefix group. -/
def matchAfterPre (s : List Char) : Option (List Char × List Char) :=
  match s with
  | [] => none
  | c :: rest =>
    if isSepChar c then
      match matchNum1Rest rest with
      | some r => some r
      | none => matchNum1Rest s
    else matchNum1Rest s

/-- `PATTERN_NUM.match` with the empty alternative of the prefix group
`(0\d0)?`: the rest of the pattern must match the whole input; the
returned triple carries the groups `num0` (here `none`), `num1`,
`num2`. -/
def matchNoPre (s : List Char) :
    Option (Option (List Char) × List Char × List Char) :=
  match matchAfterPre s with
  | some r => some (none, r.1, r.2)
  | none => none

/-- `PATTERN_NUM.match` continued: the whole pattern.  The optional
greedy prefix group `(0\d0)?` is tried first when the input starts with
`0`, digit, `0`, and the engine falls back to the empty alternative
(`matchNoPre`) when the rest cannot match after the prefix. -/
def matchPatternNum (s : List Char) :
    Option (Option (List Char) × List Char × List Char) :=
  match s with
  | c1 :: c2 :: c3 :: rest =>
    if c1 = '0' ∧ c3 = '0' ∧ isDigitChar c2 = true then
      match matchAfterPre rest with
      | some r => some (some [c1, c2, c3], r.1, r.2)
      | none => matchNoPre (c1 :: c2 :: c3 :: rest)
    else matchNoPre (c1 :: c2 :: c3 :: rest)
  | s => matchNoPre s

/-- `_valid_tr_to` (lines 183-201): strip the input, match it against
`PATTERN_NUM`, default the missing prefix group to `010`, and join the
three groups with dashes. -/
def validTrTo (trTo : List Char) : Except PyError (List Char) :=
  match matchPatternNum (pyStrip trTo) with
  | none => .error (.invalidNumber trTo)
  | some (n0, n1, n2) =>
    .ok ((n0.getD ['0', '1', '0']) ++ '-' :: (n1 ++ '-' :: n2))

/-- One queue entry, the `SMSData` namedtuple: the normalized recipient
and the euc-kr encoded message body. -/
structure SMSData where
  trTo : List Char
  trTxtmsg : List Nat
deriving DecidableEq, Repr

/-- The accumulation loop of `_slice_tr_txtmsg` (lines 212-230):
characters are popped from the front one at a time; once more than 44
are accumulated, the running euc-kr encoding is measured and the segment
is closed exactly when it is 89 or 90 bytes; the trailing accumulation
is flushed as a final segment whatever its length. -/
def sliceLoop : List Char → List Char → List (List Nat) → Option (List (List Nat))
  | [], popped, acc =>
    if popped = [] then some acc
    else
      match encodeStr popped with
      | some e => some (acc ++ [e])
      | none => none
  | c :: txtList, popped, acc =>
    if 44 < (popped ++ [c]).length then
      match encodeStr (popped ++ [c]) with
      | none => none
      | some e =>
        if e.length = 89 ∨ e.length = 90 then sliceLoop txtList [] (acc ++ [e])
        else sliceLoop txtList (popped ++ [c]) acc
    else sliceLoop txtList (popped ++ [c]) acc

/-- `_slice_tr_txtmsg` (lines 204-230). -/
def sliceTrTxtmsg (trTxtmsg : List Char) : Option (List (List Nat)) :=
  sliceLoop trTxtmsg [] []

/-- `SMS.add` (lines 66-92), acting on the queue `self.__data`: the
recipient is normalized first; the text is stripped and encoded for the
length checks, while the slicer receives the original unstripped text. -/
def SMS.add (q : List SMSData) (trTo : List Char) (trTxtmsg : List Char)
    (autoSlice : Bool) : Except PyError (List SMSData) :=
  match validTrTo trTo with
  | .error e => .error e
  | .ok toNum =>
    match encodeStr (pyStrip trTxtmsg) with
    | none => .error .unicodeEncodeError
    | some txtBytes =>
      if txtBytes.length = 0 then .error .emptyMessage
      else if 90 < txtBytes.length then
        if autoSlice = false then .error .messageTooLong
        else
          match sliceTrTxtmsg trTxtmsg with
          | none => .error .unicodeEncodeError
          | some segs => .ok (q ++ segs.map (fun sBytes => ⟨toNum, sBytes⟩))
      else .ok (q ++ [⟨toNum, txtBytes⟩])

/-- The `date` form field of `send`: the integer `0` sentinel meaning
immediate delivery, or the formatted timestamp (modelled by the
timestamp value itself rather than its strftime text). -/
inductive TrDateField where
  | immediate
  | scheduled (t : Int)
deriving DecidableEq, Repr

/-- The `msg` form field of `send`: the empty string substituted for a
missing `tr_comment`, or the euc-kr encoded comment. -/
inductive MsgField where
  | empty
  | comment (bs : List Nat)
deriving DecidableEq, Repr

/-- The client state: the credentials and sender information fixed at
construction, and the mutable queue `self.__data`. -/
structure SMSState where
  trId : String
  trKey : String
  trFrom : String
  trIp : String
  data : List SMSData
deriving DecidableEq, Repr

/-- The form dictionary of one POST of `send` (lines 165-174). -/
structure PostData where
  adminuser : String
  authkey : String
  rphone : String
  phone : List Char
  sms : List Nat
  date : TrDateField
  msg : MsgField
  ip : String
deriving DecidableEq, Repr

/-- Lines 148-155 of `send`: a missing date gives the `0` sentinel; a
date earlier than 3 minutes (180 seconds) past `now` raises.  Times are
modelled as integer timestamps in seconds, `now` standing for
`datetime.datetime.now()`. -/
def dateFieldOf (now : Int) (trDate : Option Int) : Except PyError TrDateField :=
  match trDate with
  | none => .ok .immediate
  | some t => if t < now + 180 then .error .tooSoon else .ok (.scheduled t)

/-- Lines 157-161 of `send`: a missing comment becomes the empty string,
a textual one is euc-kr encoded (which can raise). -/
def msgFieldOf (trComment : Option (List Char)) : Except PyError MsgField :=
  match trComment with
  | none => .ok .empty
  | some cs =>
    match encodeStr cs with
    | some bs => .ok (.comment bs)
    | none => .error .unicodeEncodeError

/-- The form dictionary built for one queue entry (lines 165-174). -/
def mkPostData (st : SMSState) (dateF : TrDateField) (msgF : MsgField)
    (e : SMSData) : PostData :=
  { adminuser := st.trId, authkey := st.trKey, rphone := st.trFrom,
    phone := e.trTo, sms := e.trTxtmsg, date := dateF, msg := msgF, ip := st.trIp }

/-- The per-entry loop of `send` (lines 163-177).  Modelled from the
spec: the network POST together with the external `phpserialize.loads`
of `_decode_response` is abstracted by `oracle`, which maps the index of
the POST to either a raised exception or the deserialized items handed
to the decoding loop.  The result pairs the collected decoded responses
(or the first exception, which aborts the loop) with the POSTs issued. -/
def sendLoop (oracle : Nat → Except PyError (List (PhpVal × PhpVal)))
    (mk : SMSData → PostData) :
    List SMSData → Nat →
      Except PyError (List (List (DecodedVal × DecodedVal))) × List PostData
  | [], _ => (.ok [], [])
  | e :: rest, i =>
    match oracle i with
    | .error err => (.error err, [mk e])
    | .ok items =>
      match decodeItems items with
      | .error err => (.error err, [mk e])
      | .ok d =>
        match sendLoop oracle mk rest (i + 1) with
        | (.ok ds, ps) => (.ok (d :: ds), mk e :: ps)
        | (.error err, ps) => (.error err, mk e :: ps)

/-- `SMS.send` (lines 136-180): empty-queue check, schedule check,
comment encoding, then one POST per queue entry in order.  On any raised
exception the queue is untouched (the `clear()` on line 179 is never
reached); on completion it is cleared unconditionally and the decoded
responses are returned. -/
def SMS.send (st : SMSState) (now : Int) (trDate : Option Int)
    (trComment : Option (List Char))
    (oracle : Nat → Except PyError (List (PhpVal × PhpVal))) :
    Except PyError (List (List (DecodedVal × DecodedVal))) × List PostData × SMSState :=
  if st.data = [] then (.error .noData, [], st)
  else
    match dateFieldOf now trDate with
    | .error e => (.error e, [], st)
    | .ok dF =>
      match msgFieldOf trComment with
      | .error e => (.error e, [], st)
      | .ok mF =>
        match sendLoop oracle (mkPostData st dF mF) st.data 0 with
        | (.ok ds, ps) => (.ok ds, ps, { st with data := [] })
        | (.error e, ps) => (.error e, ps, st)

/-- The arguments of one `add` invocation. -/
structure AddCall where
  trTo : List Char
  trTxtmsg : List Char
  autoSlice : Bool

/-- A sequence of `add` calls applied to a queue, stopping at the first
raised error (an error leaves the queue behind, as the exception
propagates to the caller before any append of that call). -/
def addMany (q : List SMSData) : List AddCall → Except PyError (List SMSData)
  | [] => .ok q
  | c :: cs =>
    match SMS.add q c.trTo c.trTxtmsg c.autoSlice with
    | .error e => .error e
    | .ok q2 => addMany q2 cs

/-- An optional single separator, as the pattern allows between the
digit groups. -/
def sepOpt (b : List Char) : Prop :=
  b = [] ∨ ∃ c, isSepChar c = true ∧ b = [c]

/-- All characters are decimal digits. -/
def allDigits (s : List Char) : Bool :=
  s.all isDigitChar

/-- The phone-number language of `PATTERN_NUM`, stated declaratively: an
optional prefix `0`,digit,`0`, an optional separator, a group of 3-4
digits, another optional separator, and a group of 4 digits. -/
def specNumberFormat (s : List Char) : Prop :=
  ∃ p a m b t, s = p ++ (a ++ (m ++ (b ++ t))) ∧
    (p = [] ∨ ∃ d, isDigitChar d = true ∧ p = ['0', d, '0']) ∧
    sepOpt a ∧
    allDigits m = true ∧ (m.length = 3 ∨ m.length = 4) ∧
    sepOpt b ∧
    allDigits t = true ∧ t.length = 4

/-- The separator class exactly as the claim words it: space, dash or
dot. -/
def isSepCharClaim (c : Char) : Bool :=
  c = ' ' || c = '-' || c = '.'

/-- An optional single separator in the claim's sense. -/
def sepOptClaim (b : List Char) : Prop :=
  b = [] ∨ ∃ c, isSepCharClaim c = true ∧ b = [c]

/-- The phone-number language exactly as the claim describes it: an
optional 3-digit prefix starting with `0` followed by any middle digit
(the third digit left unconstrained by the claim), an optional
space/dash/dot separator, a group of 3-4 digits, another optional
separator, and a group of 4 digits. -/
def claimNumberFormat (s : List Char) : Prop :=
  ∃ p a m b t, s = p ++ (a ++ (m ++ (b ++ t))) ∧
    (p = [] ∨ ∃ d e, isDigitChar d = true ∧ isDigitChar e = true ∧ p = ['0', d, e]) ∧
    sepOptClaim a ∧
    allDigits m = true ∧ (m.length = 3 ∨ m.length = 4) ∧
    sepOptClaim b ∧
    allDigits t = true ∧ t.length = 4

/-- A serialized value on which the decode attempt of `_decode_response`
cannot raise: a byte string must be valid UTF-8, anything else is left
untouched. -/
def valDecodable (v : PhpVal) : Bool :=
  match v with
  | .bytes bs => (decodeUtf8 bs).isSome
  | _ => true

/-- What the decoded form of one key or value must be: byte strings are
replaced by their UTF-8 text, other values kept unchanged. -/
def decodedValSpec (v : PhpVal) (d : DecodedVal) : Prop :=
  match v with
  | .bytes bs => ∃ cs, decodeUtf8 bs = some cs ∧ d = .str cs
  | v => d = .raw v


theorem decodeEucKr_cons_lt (b : Nat) (bs : List Nat) (h : b < 128) :
    decodeEucKr (b :: bs) = (decodeEucKr bs).map (fun cs => Char.ofNat b :: cs) := by
  rcases bs with _ | ⟨b2, _ | ⟨b3, rest⟩⟩
  · rw [decodeEucKr.eq_3, if_pos h]
    simp [decodeEucKr.eq_1]
  · rw [decodeEucKr.eq_4 _ _ _ (by intro x y r hcc; simp at hcc), if_pos h]
    cases decodeEucKr [b2] <;> simp
  · rw [decodeEucKr.eq_2, if_pos h]
    cases decodeEucKr (b2 :: b3 :: rest) <;> simp

theorem decodeEucKr_cons2 (b b2 : Nat) (rest : List Nat) (hb : ¬ b < 128)
    (hb200 : b ≠ 200) (hc : b2 < 256 ∧ (b - 128) * 256 + b2 < 11172) :
    decodeEucKr (b :: b2 :: rest) =
      (decodeEucKr rest).map (fun cs => Char.ofNat (44032 + ((b - 128) * 256 + b2)) :: cs) := by
  rcases rest with _ | ⟨b3, rest2⟩
  · rw [decodeEucKr.eq_4 _ _ _ (by intro x y r hcc; simp at hcc),
      if_neg hb, if_neg hb200, if_pos hc]
    simp [decodeEucKr.eq_1]
  · rw [decodeEucKr.eq_2, if_neg hb, if_neg hb200, if_pos hc]
    cases decodeEucKr (b3 :: rest2) <;> simp

theorem decodeEucKr_cons3 (b2 b3 : Nat) (rest : List Nat)
    (hc : b2 < 256 ∧ b3 < 256 ∧ b2 * 256 + b3 < 20992) :
    decodeEucKr (200 :: b2 :: b3 :: rest) =
      (decodeEucKr rest).map (fun cs => Char.ofNat (19968 + (b2 * 256 + b3)) :: cs) := by
  rw [decodeEucKr.eq_2, if_neg (by omega), if_pos rfl, if_pos hc]
  cases decodeEucKr rest <;> simp

theorem encChar_length (c : Char) (e : List Nat) (h : encChar c = some e) :
    1 ≤ e.length ∧ e.length ≤ 3 := by
  unfold encChar at h
  split_ifs at h
  · simp only [Option.some.injEq] at h
    subst h
    simp
  · simp only [Option.some.injEq] at h
    subst h
    simp
  · simp only [Option.some.injEq] at h
    subst h
    simp

theorem encodeStr_append (a b : List Char) :
    encodeStr (a ++ b) =
      (encodeStr a).bind (fun ea => (encodeStr b).map (fun eb => ea ++ eb)) := by
  induction a with
  | nil =>
    simp [encodeStr]
  | cons c cs ih =>
    cases hc : encChar c <;> cases hcs : encodeStr cs <;> cases hb : encodeStr b <;>
      simp [encodeStr, hc, hcs, hb, ih, List.append_assoc]

theorem decode_encChar (c : Char) (e bs : List Nat) (h : encChar c = some e) :
    decodeEucKr (e ++ bs) = (decodeEucKr bs).map (fun cs => c :: cs) := by
  unfold encChar at h
  split_ifs at h with h1 h2 h3
  · simp only [Option.some.injEq] at h
    subst h
    rw [List.cons_append, List.nil_append, decodeEucKr_cons_lt _ _ h1, Char.ofNat_toNat]
  · simp only [Option.some.injEq] at h
    subst h
    have hb : ¬ (128 + (c.toNat - 44032) / 256 < 128) := by omega
    have hb200 : 128 + (c.toNat - 44032) / 256 ≠ 200 := by
      have : (c.toNat - 44032) / 256 ≤ 43 := by omega
      omega
    have hdm := Nat.div_add_mod (c.toNat - 44032) 256
    have hcond : (c.toNat - 44032) % 256 < 256 ∧
        (128 + (c.toNat - 44032) / 256 - 128) * 256 + (c.toNat - 44032) % 256 < 11172 := by
      constructor
      · exact Nat.mod_lt _ (by omega)
      · omega
    rw [List.cons_append, List.cons_append, List.nil_append,
      decodeEucKr_cons2 _ _ _ hb hb200 hcond]
    have harg : 44032 + ((128 + (c.toNat - 44032) / 256 - 128) * 256 + (c.toNat - 44032) % 256)
        = c.toNat := by omega
    rw [harg, Char.ofNat_toNat]
  · simp only [Option.some.injEq] at h
    subst h
    have hdm := Nat.div_add_mod (c.toNat - 19968) 256
    have hcond : (c.toNat - 19968) / 256 < 256 ∧ (c.toNat - 19968) % 256 < 256 ∧
        (c.toNat - 19968) / 256 * 256 + (c.toNat - 19968) % 256 < 20992 := by
      refine ⟨by omega, Nat.mod_lt _ (by omega), by omega⟩
    rw [List.cons_append, List.cons_append, List.cons_append, List.nil_append,
      decodeEucKr_cons3 _ _ _ hcond]
    have harg : 19968 + ((c.toNat - 19968) / 256 * 256 + (c.toNat - 19968) % 256)
        = c.toNat := by omega
    rw [harg, Char.ofNat_toNat]

theorem decodeEucKr_encodeStr (s : List Char) (e : List Nat) (h : encodeStr s = some e) :
    decodeEucKr e = some s := by
  induction s generalizing e with
  | nil =>
    simp only [encodeStr, Option.some.injEq] at h
    subst h
    rfl
  | cons c cs ih =>
    unfold encodeStr at h
    cases hc : encChar c <;> rw [hc] at h
    · exact absurd h (by simp)
    case some ec =>
      cases hcs : encodeStr cs <;> rw [hcs] at h
      · exact absurd h (by simp)
      case some ecs =>
        simp only [Option.some.injEq] at h
        subst h
        rw [decode_encChar c ec ecs hc, ih ecs hcs]
        rfl

theorem encodeStr_length (s : List Char) (e : List Nat) (h : encodeStr s = some e) :
    s.length ≤ e.length ∧ e.length ≤ 3 * s.length := by
  induction s generalizing e with
  | nil =>
    simp only [encodeStr, Option.some.injEq] at h
    subst h
    simp
  | cons c cs ih =>
    unfold encodeStr at h
    cases hc : encChar c <;> rw [hc] at h
    · exact absurd h (by simp)
    case some ec =>
      cases hcs : encodeStr cs <;> rw [hcs] at h
      · exact absurd h (by simp)
      case some ecs =>
        simp only [Option.some.injEq] at h
        subst h
        have h1 := encChar_length c ec hc
        have h2 := ih ecs hcs
        simp only [List.length_append, List.length_cons]
        omega

theorem decodeAll_append (xs ys : List (List Nat)) (as bs : List Char)
    (hx : decodeAll xs = some as) (hy : decodeAll ys = some bs) :
    decodeAll (xs ++ ys) = some (as ++ bs) := by
  induction xs generalizing as with
  | nil =>
    simp only [decodeAll, Option.some.injEq] at hx
    subst hx
    simpa using hy
  | cons x xs ih =>
    unfold decodeAll at hx
    cases h1 : decodeEucKr x <;> rw [h1] at hx
    · exact absurd hx (by simp)
    case some cs1 =>
      cases h2 : decodeAll xs <;> rw [h2] at hx
      · exact absurd hx (by simp)
      case some cs2 =>
        simp only [Option.some.injEq] at hx
        subst hx
        rw [List.cons_append]
        unfold decodeAll
        rw [h1, ih cs2 h2]
        simp [List.append_assoc]

theorem sliceLoop_struct (txtList popped : List Char) (acc segs : List (List Nat))
    (h : sliceLoop txtList popped acc = some segs)
    (hacc : ∀ s ∈ acc, 0 < List.length s ∧ List.length s ≤ 90) :
    (∀ s ∈ segs.dropLast, 0 < List.length s ∧ List.length s ≤ 90) ∧
    (∀ s ∈ segs, 0 < List.length s) := by
  induction txtList generalizing popped acc with
  | nil =>
    simp only [sliceLoop] at h
    split_ifs at h with hp
    · simp only [Option.some.injEq] at h
      subst h
      exact ⟨fun s hs => hacc s (List.dropLast_subset acc hs),
        fun s hs => (hacc s hs).1⟩
    · cases he : encodeStr popped <;> rw [he] at h
      · exact absurd h (by simp)
      · rename_i e
        simp only [Option.some.injEq] at h
        subst h
        have hepos : 0 < e.length := by
          have h1 := encodeStr_length popped e he
          have h2 : popped.length ≠ 0 := fun h0 => hp (List.length_eq_zero.1 h0)
          omega
        have hdl : (acc ++ [e]).dropLast = acc := by simp
        constructor
        · intro s hs
          rw [hdl] at hs
          exact hacc s hs
        · intro s hs
          rcases List.mem_append.1 hs with hs | hs
          · exact (hacc s hs).1
          · simp only [List.mem_singleton] at hs
            subst hs
            exact hepos
  | cons c txt ih =>
    simp only [sliceLoop] at h
    split_ifs at h with hlen
    · cases he : encodeStr (popped ++ [c]) <;> rw [he] at h
      · exact absurd h (by simp)
      · rename_i e
        dsimp only at h
        split_ifs at h with hclose
        · refine ih [] (acc ++ [e]) h ?_
          intro s hs
          rcases List.mem_append.1 hs with hs | hs
          · exact hacc s hs
          · simp only [List.mem_singleton] at hs
            subst hs
            omega
        · exact ih (popped ++ [c]) acc h hacc
    · exact ih (popped ++ [c]) acc h hacc

theorem sliceLoop_decode (txtList popped : List Char) (acc : List (List Nat))
    (segs : List (List Nat)) (cs0 : List Char)
    (h : sliceLoop txtList popped acc = some segs)
    (hacc : decodeAll acc = some cs0) :
    decodeAll segs = some (cs0 ++ (popped ++ txtList)) := by
  induction txtList generalizing popped acc cs0 with
  | nil =>
    simp only [sliceLoop] at h
    split_ifs at h with hp
    · simp only [Option.some.injEq] at h
      subst h
      subst hp
      simpa using hacc
    · cases he : encodeStr popped <;> rw [he] at h
      · exact absurd h (by simp)
      · rename_i e
        simp only [Option.some.injEq] at h
        subst h
        have hdec : decodeAll [e] = some popped := by
          unfold decodeAll
          rw [decodeEucKr_encodeStr popped e he]
          simp [decodeAll]
        have := decodeAll_append acc [e] cs0 popped hacc hdec
        simpa using this
  | cons c txt ih =>
    simp only [sliceLoop] at h
    split_ifs at h with hlen
    · cases he : encodeStr (popped ++ [c]) <;> rw [he] at h
      · exact absurd h (by simp)
      · rename_i e
        dsimp only at h
        split_ifs at h with hclose
        · have hdec : decodeAll [e] = some (popped ++ [c]) := by
            unfold decodeAll
            rw [decodeEucKr_encodeStr _ e he]
            simp [decodeAll]
          have hacc2 := decodeAll_append acc [e] cs0 (popped ++ [c]) hacc hdec
          have := ih [] (acc ++ [e]) (cs0 ++ (popped ++ [c])) h hacc2
          simpa [List.append_assoc] using this
        · have := ih (popped ++ [c]) acc cs0 h hacc
          simpa [List.append_assoc] using this
    · have := ih (popped ++ [c]) acc cs0 h hacc
      simpa [List.append_assoc] using this

theorem sliceLoop_join (txtList popped : List Char) (acc segs : List (List Nat))
    (h : sliceLoop txtList popped acc = some segs) :
    ∃ rest, segs = acc ++ rest ∧ encodeStr (popped ++ txtList) = some rest.flatten := by
  induction txtList generalizing popped acc with
  | nil =>
    simp only [sliceLoop] at h
    split_ifs at h with hp
    · simp only [Option.some.injEq] at h
      subst h
      subst hp
      exact ⟨[], by simp, by simp [encodeStr]⟩
    · cases he : encodeStr popped <;> rw [he] at h
      · exact absurd h (by simp)
      · rename_i e
        simp only [Option.some.injEq] at h
        subst h
        exact ⟨[e], rfl, by simpa using he⟩
  | cons c txt ih =>
    simp only [sliceLoop] at h
    split_ifs at h with hlen
    · cases he : encodeStr (popped ++ [c]) <;> rw [he] at h
      · exact absurd h (by simp)
      · rename_i e
        dsimp only at h
        split_ifs at h with hclose
        · obtain ⟨rest, hsegs, henc⟩ := ih [] (acc ++ [e]) h
          refine ⟨e :: rest, by simpa [List.append_assoc] using hsegs, ?_⟩
          simp only [List.nil_append] at henc
          have : encodeStr ((popped ++ [c]) ++ txt) = some (e ++ rest.flatten) := by
            rw [encodeStr_append, he, henc]
            rfl
          simpa [List.append_assoc] using this
        · obtain ⟨rest, hsegs, henc⟩ := ih (popped ++ [c]) acc h
          exact ⟨rest, hsegs, by simpa [List.append_assoc] using henc⟩
    · obtain ⟨rest, hsegs, henc⟩ := ih (popped ++ [c]) acc h
      exact ⟨rest, hsegs, by simpa [List.append_assoc] using henc⟩

theorem sliceTrTxtmsg_struct (msg : List Char) (segs : List (List Nat))
    (h : sliceTrTxtmsg msg = some segs) :
    (∀ s ∈ segs.dropLast, 0 < List.length s ∧ List.length s ≤ 90) ∧
    (∀ s ∈ segs, 0 < List.length s) :=
  sliceLoop_struct msg [] [] segs h (by simp)

theorem sliceTrTxtmsg_decode (msg : List Char) (segs : List (List Nat))
    (h : sliceTrTxtmsg msg = some segs) :
    decodeAll segs = some msg := by
  have := sliceLoop_decode msg [] [] segs [] h rfl
  simpa using this

theorem sliceTrTxtmsg_join (msg : List Char) (segs : List (List Nat))
    (h : sliceTrTxtmsg msg = some segs) :
    encodeStr msg = some segs.flatten := by
  obtain ⟨rest, hsegs, henc⟩ := sliceLoop_join msg [] [] segs h
  simp only [List.nil_append] at hsegs henc
  subst hsegs
  exact henc

theorem pyStrip_decomp (s : List Char) :
    ∃ l r, s = l ++ (pyStrip s ++ r) := by
  refine ⟨s.takeWhile isSpaceChar,
    ((s.dropWhile isSpaceChar).reverse.takeWhile isSpaceChar).reverse, ?_⟩
  have h2 := List.takeWhile_append_dropWhile (p := isSpaceChar)
      (l := (s.dropWhile isSpaceChar).reverse)
  have h3 := congrArg List.reverse h2
  simp only [List.reverse_append, List.reverse_reverse] at h3
  unfold pyStrip
  conv_lhs => rw [← List.takeWhile_append_dropWhile (p := isSpaceChar) (l := s), ← h3]

theorem add_entries (q : List SMSData) (trTo trTxtmsg : List Char)
    (autoSlice : Bool) (q2 : List SMSData)
    (h : SMS.add q trTo trTxtmsg autoSlice = .ok q2) :
    ∃ entries, q2 = q ++ entries ∧
      (∀ e ∈ entries, 0 < e.trTxtmsg.length) ∧
      (∀ e ∈ entries.dropLast, e.trTxtmsg.length ≤ 90) := by
  unfold SMS.add at h
  cases hv : validTrTo trTo <;> rw [hv] at h
  · exact Except.noConfusion h
  · rename_i toNum
    cases he : encodeStr (pyStrip trTxtmsg) <;> rw [he] at h
    · exact Except.noConfusion h
    · rename_i txtBytes
      dsimp only at h
      by_cases h0 : txtBytes.length = 0
      · rw [if_pos h0] at h
        exact Except.noConfusion h
      rw [if_neg h0] at h
      by_cases h90 : 90 < txtBytes.length
      · rw [if_pos h90] at h
        by_cases hs : autoSlice = false
        · rw [if_pos hs] at h
          exact Except.noConfusion h
        · rw [if_neg hs] at h
          cases hsl : sliceTrTxtmsg trTxtmsg <;> rw [hsl] at h
          · exact Except.noConfusion h
          · rename_i segs
            simp only [Except.ok.injEq] at h
            subst h
            obtain ⟨hdrop, hpos⟩ := sliceTrTxtmsg_struct trTxtmsg segs hsl
            refine ⟨segs.map (fun sBytes => ⟨toNum, sBytes⟩), rfl, ?_, ?_⟩
            · intro e he2
              obtain ⟨sBytes, hmem, rfl⟩ := List.mem_map.1 he2
              exact hpos sBytes hmem
            · intro e he2
              rw [← List.map_dropLast] at he2
              obtain ⟨sBytes, hmem, rfl⟩ := List.mem_map.1 he2
              exact (hdrop sBytes hmem).2
      · rw [if_neg h90] at h
        simp only [Except.ok.injEq] at h
        subst h
        refine ⟨[⟨toNum, txtBytes⟩], rfl, ?_, ?_⟩
        · intro e he2
          simp only [List.mem_singleton] at he2
          subst he2
          dsimp only
          omega
        · intro e he2
          simp at he2

theorem validTrTo_error (trTo : List Char) (e : PyError)
    (h : validTrTo trTo = .error e) : e = .invalidNumber trTo := by
  unfold validTrTo at h
  cases hm : matchPatternNum (pyStrip trTo) <;> rw [hm] at h
  · simp only [Except.error.injEq] at h
    exact h.symm
  · rename_i g
    obtain ⟨n0, n1, n2⟩ := g
    exact Except.noConfusion h

/-- C3, amended: after every successful `add` call, and through every
sequence of `add` calls, every entry of the queue has a non-empty body;
and among the entries appended by one successful `add`, every entry
except possibly the last has a body of at most 90 bytes (entries
appended without slicing and closed slicer segments respect the
ceiling; only the trailing segment of a sliced message may exceed it,
the oversized-final-segment case of spec §9). -/
theorem claim_C3_amended :
    (∀ (q : List SMSData) (calls : List AddCall) (q2 : List SMSData),
      (∀ e ∈ q, 0 < e.trTxtmsg.length) → addMany q calls = .ok q2 →
      ∀ e ∈ q2, 0 < e.trTxtmsg.length) ∧
    (∀ (q : List SMSData) (trTo trTxtmsg : List Char) (autoSlice : Bool)
        (q2 : List SMSData), SMS.add q trTo trTxtmsg autoSlice = .ok q2 →
      ∃ entries, q2 = q ++ entries ∧ (∀ e ∈ entries, 0 < e.trTxtmsg.length) ∧
        ∀ e ∈ entries.dropLast, e.trTxtmsg.length ≤ 90) := by
  constructor
  · intro q calls q2
    induction calls generalizing q with
    | nil =>
      intro hq h
      unfold addMany at h
      simp only [Except.ok.injEq] at h
      subst h
      exact hq
    | cons c cs ih =>
      intro hq h
      unfold addMany at h
      cases ha : SMS.add q c.trTo c.trTxtmsg c.autoSlice <;> rw [ha] at h
      · exact Except.noConfusion h
      · rename_i q1
        refine ih q1 ?_ h
        obtain ⟨entries, rfl, hpos, -⟩ :=
          add_entries q c.trTo c.trTxtmsg c.autoSlice q1 ha
        intro e he
        rcases List.mem_append.1 he with he | he
        · exact hq e he
        · exact hpos e he
  · intro q trTo trTxtmsg autoSlice q2 h
    exact add_entries q trTo trTxtmsg autoSlice q2 h

theorem claim_C3_amended_witness :
    (∀ e ∈ ([] : List SMSData), 0 < e.trTxtmsg.length) ∧
    addMany [] [⟨"01012345678".toList, "hello".toList, false⟩] =
      .ok [⟨"010-1234-5678".toList, [104, 101, 108, 108, 111]⟩] ∧
    (∀ e ∈ [(⟨"010-1234-5678".toList, [104, 101, 108, 108, 111]⟩ : SMSData)],
      0 < e.trTxtmsg.length) ∧
    SMS.add [] "01012345678".toList "hello".toList false =
      .ok [⟨"010-1234-5678".toList, [104, 101, 108, 108, 111]⟩] ∧
    ∃ entries,
      [(⟨"010-1234-5678".toList, [104, 101, 108, 108, 111]⟩ : SMSData)] =
        [] ++ entries ∧ (∀ e ∈ entries, 0 < e.trTxtmsg.length) ∧
        ∀ e ∈ entries.dropLast, e.trTxtmsg.length ≤ 90 :=
  ⟨fun e he => absurd he (List.not_mem_nil e), rfl,
    claim_C3_amended.1 [] [⟨"01012345678".toList, "hello".toList, false⟩]
      [⟨"010-1234-5678".toList, [104, 101, 108, 108, 111]⟩]
      (fun e he => absurd he (List.not_mem_nil e)) rfl,
    rfl,
    claim_C3_amended.2 [] "01012345678".toList "hello".toList false
      [⟨"010-1234-5678".toList, [104, 101, 108, 108, 111]⟩] rfl⟩

/-- C3, counterexample to the claim as stated: 46 CJK characters encode
to three bytes each (138 bytes in all) in the legacy encoding; the
slicer's closing test fires only when the running encoding measures
exactly 89 or 90 bytes, and 45 such characters already measure 135
bytes, so the test is skipped past and the whole text is flushed as a
single trailing segment of 138 bytes: after this successful `add` the
queue holds an entry whose body exceeds the 90-byte ceiling, the
oversized-final-segment case that spec §9 itself flags. -/
theorem claim_C3_counterexample :
    SMS.add [] "01012345678".toList
        (List.replicate 46 (Char.ofNat 19968)) true =
      .ok [⟨"010-1234-5678".toList, (List.replicate 46 [200, 0, 0]).flatten⟩] ∧
    90 < ((List.replicate 46 [200, 0, 0]).flatten : List Nat).length :=
  ⟨rfl, by decide⟩

/-- C4, amended: when the *stripped* text encodes to more than 90 bytes
(the length `add` actually tests) and `auto_slice` is set, a successful
`add` appends the slicer's segments: at least one entry, all paired with
the same normalized recipient, whose bodies decode and concatenate back
to the original (unstripped) text handed to the slicer; and there are at
least two entries unless the single appended entry is itself an
oversized trailing segment of more than 90 bytes (possible for scripts
whose characters encode to three bytes, the spec §9 caveat). -/
theorem claim_C4_amended (q : List SMSData) (trTo trTxtmsg : List Char)
    (bs : List Nat) (q2 : List SMSData)
    (henc : encodeStr (pyStrip trTxtmsg) = some bs) (hlen : 90 < bs.length)
    (h : SMS.add q trTo trTxtmsg true = .ok q2) :
    ∃ toNum entries, validTrTo trTo = .ok toNum ∧ q2 = q ++ entries ∧
      1 ≤ entries.length ∧ (∀ e ∈ entries, e.trTo = toNum) ∧
      decodeAll (entries.map SMSData.trTxtmsg) = some trTxtmsg ∧
      (2 ≤ entries.length ∨ ∀ e ∈ entries, 90 < e.trTxtmsg.length) := by
  unfold SMS.add at h
  cases hv : validTrTo trTo <;> rw [hv] at h
  · exact Except.noConfusion h
  · rename_i toNum
    rw [henc] at h
    dsimp only at h
    rw [if_neg (by omega), if_pos hlen, if_neg (by simp)] at h
    cases hsl : sliceTrTxtmsg trTxtmsg <;> rw [hsl] at h
    · exact Except.noConfusion h
    · rename_i segs
      simp only [Except.ok.injEq] at h
      subst h
      have hJ := sliceTrTxtmsg_join trTxtmsg segs hsl
      have hflat : 90 < segs.flatten.length := by
        obtain ⟨l, r, hdec⟩ := pyStrip_decomp trTxtmsg
        rw [hdec, encodeStr_append] at hJ
        cases hl : encodeStr l <;> rw [hl] at hJ
        · exact absurd hJ (by simp)
        · rename_i el
          rw [encodeStr_append, henc] at hJ
          cases hr : encodeStr r <;> rw [hr] at hJ
          · exact absurd hJ (by simp)
          · rename_i er
            simp only [Option.some_bind, Option.map_some', Option.some.injEq] at hJ
            have hlen2 : segs.flatten.length = el.length + (bs.length + er.length) := by
              rw [← hJ]
              simp [List.length_append]
            omega
      refine ⟨toNum, segs.map (fun sBytes => ⟨toNum, sBytes⟩), rfl, rfl, ?_, ?_, ?_, ?_⟩
      · rw [List.length_map]
        rcases segs with _ | ⟨s1, srest⟩
        · simp at hflat
        · simp
      · intro e he
        obtain ⟨sBytes, hmem, rfl⟩ := List.mem_map.1 he
        rfl
      · have hcomp : (SMSData.trTxtmsg ∘ fun sBytes => (⟨toNum, sBytes⟩ : SMSData)) = id := rfl
        rw [List.map_map, hcomp, List.map_id]
        exact sliceTrTxtmsg_decode trTxtmsg segs hsl
      · rcases segs with _ | ⟨s1, _ | ⟨s2, srest⟩⟩
        · simp at hflat
        · right
          intro e he
          simp only [List.map_cons, List.map_nil, List.mem_singleton] at he
          subst he
          dsimp only
          simpa using hflat
        · left
          simp [List.length_map]

theorem claim_C4_amended_witness :
    ∃ toNum entries,
      validTrTo "01012345678".toList = .ok toNum ∧
      ([⟨"010-1234-5678".toList, List.replicate 89 97⟩,
        ⟨"010-1234-5678".toList, [97, 97]⟩] : List SMSData) = [] ++ entries ∧
      1 ≤ entries.length ∧ (∀ e ∈ entries, e.trTo = toNum) ∧
      decodeAll (entries.map SMSData.trTxtmsg) = some (List.replicate 91 'a') ∧
      (2 ≤ entries.length ∨ ∀ e ∈ entries, 90 < e.trTxtmsg.length) :=
  claim_C4_amended [] "01012345678".toList (List.replicate 91 'a')
    (List.replicate 91 97)
    [⟨"010-1234-5678".toList, List.replicate 89 97⟩,
      ⟨"010-1234-5678".toList, [97, 97]⟩]
    rfl (by simp) rfl

/-- C4, counterexample to the claim as stated: for the text of 89 `a`
characters followed by two spaces, the encoded length of the text is 91
bytes (more than 90), yet `add` with slicing allowed appends exactly one
queue entry (the length test is applied to the *stripped* text, which is
89 bytes), not at least two. -/
theorem claim_C4_counterexample :
    encodeStr (List.replicate 89 'a' ++ [' ', ' ']) =
      some (List.replicate 89 97 ++ [32, 32]) ∧
    90 < (List.replicate 89 97 ++ [32, 32] : List Nat).length ∧
    SMS.add [] "01012345678".toList (List.replicate 89 'a' ++ [' ', ' ']) true =
      .ok [⟨"010-1234-5678".toList, List.replicate 89 97⟩] := by
  refine ⟨rfl, by simp, rfl⟩

/-- C2: whenever the message slicer returns segments for a message,
decoding each segment in the legacy encoding and concatenating the
decoded segments in order yields exactly the original input string. -/
theorem claim_C2_roundtrip (msg : List Char) (segs : List (List Nat))
    (h : sliceTrTxtmsg msg = some segs) : decodeAll segs = some msg :=
  sliceTrTxtmsg_decode msg segs h

theorem claim_C2_roundtrip_witness :
    sliceTrTxtmsg (List.replicate 100 'a') =
      some [List.replicate 89 97, List.replicate 11 97] ∧
    decodeAll [List.replicate 89 97, List.replicate 11 97] =
      some (List.replicate 100 'a') :=
  ⟨rfl, claim_C2_roundtrip (List.replicate 100 'a')
    [List.replicate 89 97, List.replicate 11 97] rfl⟩

/-- C7, amended: `add` raises `EmptyMessage` exactly when the recipient
normalizes successfully and the *stripped* text encodes to 0 bytes, and
raises `MessageTooLong` exactly when the recipient normalizes
successfully, the *stripped* text encodes to more than 90 bytes and
`auto_slice` is false (the original claim measured the unstripped
text, and an invalid recipient preempts both errors). -/
theorem claim_C7_amended (q : List SMSData) (trTo trTxtmsg : List Char)
    (autoSlice : Bool) :
    (SMS.add q trTo trTxtmsg autoSlice = .error .emptyMessage ↔
      (∃ toNum, validTrTo trTo = .ok toNum) ∧
      encodeStr (pyStrip trTxtmsg) = some []) ∧
    (SMS.add q trTo trTxtmsg autoSlice = .error .messageTooLong ↔
      (∃ toNum, validTrTo trTo = .ok toNum) ∧
      (∃ bs, encodeStr (pyStrip trTxtmsg) = some bs ∧ 90 < bs.length) ∧
      autoSlice = false) := by
  unfold SMS.add
  cases hv : validTrTo trTo
  · rename_i e
    have he2 := validTrTo_error trTo e hv
    subst he2
    simp
  · rename_i toNum
    cases he : encodeStr (pyStrip trTxtmsg)
    · simp
    · rename_i txtBytes
      dsimp only
      by_cases h0 : txtBytes.length = 0
      · rw [if_pos h0]
        have hnil : txtBytes = [] := List.length_eq_zero.1 h0
        subst hnil
        simp
      · rw [if_neg h0]
        have hne : ¬ txtBytes = [] := fun hh => h0 (by rw [hh]; rfl)
        by_cases h90 : 90 < txtBytes.length
        · rw [if_pos h90]
          by_cases hs : autoSlice = false
          · rw [if_pos hs]
            simp [hne, h90, hs]
          · rw [if_neg hs]
            cases hsl : sliceTrTxtmsg trTxtmsg <;> simp [hne, hs]
        · rw [if_neg h90]
          simp [hne, h90]

/-- C7, counterexample to the claim as stated: for the one-space text,
the encoded length of the text is 1 byte (not 0), yet `add` raises
`EmptyMessage`, because the check is applied to the stripped text. -/
theorem claim_C7_counterexample :
    encodeStr [' '] = some [32] ∧
    SMS.add [] "01012345678".toList [' '] false = .error .emptyMessage :=
  ⟨rfl, rfl⟩

theorem decodeVal_ok (v : PhpVal) (hv : valDecodable v = true) :
    ∃ d, decodeVal v = .ok d ∧ decodedValSpec v d := by
  cases v with
  | bytes bs =>
    unfold valDecodable at hv
    dsimp only at hv
    cases hu : decodeUtf8 bs
    · rw [hu] at hv
      exact absurd hv (by simp)
    · rename_i cs
      refine ⟨.str cs, ?_, cs, hu, rfl⟩
      unfold decodeVal
      dsimp only
      rw [hu]
  | int n => exact ⟨.raw (.int n), rfl, rfl⟩
  | null => exact ⟨.raw .null, rfl, rfl⟩
  | boolean b => exact ⟨.raw (.boolean b), rfl, rfl⟩

/-- C1, amended: over the items of a well-formed serialized mapping, the
decoder replaces every byte-string key and value by its UTF-8 text and
keeps every non-byte value unchanged, provided every byte string is
valid UTF-8; a byte-string key or value that is not valid UTF-8 makes
the decoder raise `UnicodeDecodeError` (only the `AttributeError` of a
value without a `decode` method is caught, not a failed decode). -/
theorem claim_C1_amended (items : List (PhpVal × PhpVal))
    (h : ∀ p ∈ items, valDecodable p.1 = true ∧ valDecodable p.2 = true) :
    ∃ out, decodeItems items = .ok out ∧
      List.Forall₂
        (fun (p : PhpVal × PhpVal) (d : DecodedVal × DecodedVal) =>
          decodedValSpec p.1 d.1 ∧ decodedValSpec p.2 d.2) items out := by
  induction items with
  | nil => exact ⟨[], rfl, List.Forall₂.nil⟩
  | cons p rest ih =>
    obtain ⟨hk, hv⟩ := h p (List.mem_cons_self p rest)
    obtain ⟨dk, hdk, hsk⟩ := decodeVal_ok p.1 hk
    obtain ⟨dv, hdv, hsv⟩ := decodeVal_ok p.2 hv
    obtain ⟨out, hout, hfa⟩ := ih (fun x hx => h x (List.mem_cons_of_mem p hx))
    refine ⟨(dk, dv) :: out, ?_, List.Forall₂.cons ⟨hsk, hsv⟩ hfa⟩
    obtain ⟨k, v⟩ := p
    unfold decodeItems
    rw [show decodeVal k = .ok dk from hdk, show decodeVal v = .ok dv from hdv, hout]

theorem claim_C1_amended_witness :
    (∀ p ∈ [((PhpVal.bytes [111, 107]), PhpVal.int 5)],
      valDecodable p.1 = true ∧ valDecodable p.2 = true) ∧
    ∃ out, decodeItems [((PhpVal.bytes [111, 107]), PhpVal.int 5)] = .ok out ∧
      List.Forall₂
        (fun (p : PhpVal × PhpVal) (d : DecodedVal × DecodedVal) =>
          decodedValSpec p.1 d.1 ∧ decodedValSpec p.2 d.2)
        [((PhpVal.bytes [111, 107]), PhpVal.int 5)] out :=
  ⟨by decide, claim_C1_amended [((PhpVal.bytes [111, 107]), PhpVal.int 5)] (by decide)⟩

/-- C1, counterexample to the claim as stated: for a well-formed
serialized mapping holding the byte-string value `0xFF`, whose UTF-8
decoding fails, the decoder does not keep the raw value — it raises
`UnicodeDecodeError`, because the source only catches `AttributeError`. -/
theorem claim_C1_counterexample :
    decodeItems [((PhpVal.bytes [97]), PhpVal.bytes [255])] =
      .error .unicodeDecodeError := rfl

theorem sendLoop_ok (oracle : Nat → Except PyError (List (PhpVal × PhpVal)))
    (mk : SMSData → PostData) (entries : List SMSData) (i0 : Nat)
    (h : ∀ j, j < entries.length →
      ∃ items d, oracle (i0 + j) = .ok items ∧ decodeItems items = .ok d) :
    ∃ ds, sendLoop oracle mk entries i0 = (.ok ds, entries.map mk) ∧
      ds.length = entries.length ∧
      ∀ j (hj : j < ds.length), ∃ items, oracle (i0 + j) = .ok items ∧
        decodeItems items = .ok (ds.get ⟨j, hj⟩) := by
  induction entries generalizing i0 with
  | nil =>
    exact ⟨[], rfl, rfl, fun j hj => absurd hj (by simp)⟩
  | cons e rest ih =>
    obtain ⟨items0, d0, ho0, hd0⟩ := h 0 (by simp)
    obtain ⟨ds, hloop, hlen, hidx⟩ := ih (i0 + 1) (fun j hj => by
      have hh := h (j + 1) (by simp only [List.length_cons]; omega)
      rw [show i0 + 1 + j = i0 + (j + 1) by omega]
      exact hh)
    refine ⟨d0 :: ds, ?_, by simp [hlen], ?_⟩
    · unfold sendLoop
      rw [show oracle i0 = .ok items0 from by simpa using ho0]
      dsimp only
      rw [hd0]
      dsimp only
      rw [hloop]
      rfl
    · intro j hj
      cases j with
      | zero =>
        exact ⟨items0, by simpa using ho0, by simpa using hd0⟩
      | succ j2 =>
        have hj2 : j2 < ds.length := by
          simp only [List.length_cons] at hj
          omega
        obtain ⟨items, ho, hd⟩ := hidx j2 hj2
        refine ⟨items, ?_, by simpa using hd⟩
        rw [show i0 + (j2 + 1) = i0 + 1 + j2 by omega]
        exact ho

/-- C6: for a non-empty queue, a completing `send` (valid schedule,
encodable comment, and every POST answered by a decodable payload —
whatever that payload says) issues exactly one POST per queue entry,
each carrying the credentials, sender, recipient, body, schedule,
comment and sender IP, returns one decoded response per entry in queue
order, and leaves the queue empty. -/
theorem claim_C6_send (st : SMSState) (now : Int) (trDate : Option Int)
    (trComment : Option (List Char))
    (oracle : Nat → Except PyError (List (PhpVal × PhpVal)))
    (hne : st.data ≠ [])
    (hdate : ∀ t, trDate = some t → ¬ t < now + 180)
    (hcomment : ∀ cs, trComment = some cs → (encodeStr cs).isSome = true)
    (hresp : ∀ j, j < st.data.length →
      ∃ items d, oracle j = .ok items ∧ decodeItems items = .ok d) :
    ∃ dF mF ds,
      dateFieldOf now trDate = .ok dF ∧ msgFieldOf trComment = .ok mF ∧
      SMS.send st now trDate trComment oracle =
        (.ok ds, st.data.map (mkPostData st dF mF), { st with data := [] }) ∧
      ds.length = st.data.length ∧
      ∀ j (hj : j < ds.length), ∃ items, oracle j = .ok items ∧
        decodeItems items = .ok (ds.get ⟨j, hj⟩) := by
  have hdF2 : ∃ dF, dateFieldOf now trDate = .ok dF := by
    cases trDate with
    | none => exact ⟨.immediate, rfl⟩
    | some t =>
      refine ⟨.scheduled t, ?_⟩
      unfold dateFieldOf
      dsimp only
      rw [if_neg (hdate t rfl)]
  obtain ⟨dF, hdF⟩ := hdF2
  have hmF2 : ∃ mF, msgFieldOf trComment = .ok mF := by
    cases trComment with
    | none => exact ⟨.empty, rfl⟩
    | some cs =>
      have hcs := hcomment cs rfl
      cases henc : encodeStr cs
      · rw [henc] at hcs
        exact absurd hcs (by simp)
      · rename_i bs
        refine ⟨.comment bs, ?_⟩
        unfold msgFieldOf
        dsimp only
        rw [henc]
  obtain ⟨mF, hmF⟩ := hmF2
  obtain ⟨ds, hloop, hlen, hidx⟩ := sendLoop_ok oracle (mkPostData st dF mF) st.data 0
    (fun j hj => by simpa using hresp j hj)
  refine ⟨dF, mF, ds, hdF, hmF, ?_, hlen, fun j hj => by simpa using hidx j hj⟩
  unfold SMS.send
  rw [if_neg hne, hdF]
  dsimp only
  rw [hmF]
  dsimp only
  rw [hloop]

theorem claim_C6_send_witness :
    (⟨"a", "b", "c", "d", [⟨['0'], [65]⟩]⟩ : SMSState).data ≠ [] ∧
    ∃ dF mF ds,
      dateFieldOf 0 none = .ok dF ∧ msgFieldOf none = .ok mF ∧
      SMS.send ⟨"a", "b", "c", "d", [⟨['0'], [65]⟩]⟩ 0 none none
          (fun _ => .ok [(.bytes [111], .int 1)]) =
        (.ok ds,
          (⟨"a", "b", "c", "d", [⟨['0'], [65]⟩]⟩ : SMSState).data.map
            (mkPostData ⟨"a", "b", "c", "d", [⟨['0'], [65]⟩]⟩ dF mF),
          { (⟨"a", "b", "c", "d", [⟨['0'], [65]⟩]⟩ : SMSState) with data := [] }) ∧
      ds.length = 1 ∧
      ∀ j (hj : j < ds.length),
        ∃ items, (fun (_ : Nat) => (.ok [(.bytes [111], .int 1)] :
            Except PyError (List (PhpVal × PhpVal)))) j = .ok items ∧
          decodeItems items = .ok (ds.get ⟨j, hj⟩) :=
  ⟨by simp,
    claim_C6_send ⟨"a", "b", "c", "d", [⟨['0'], [65]⟩]⟩ 0 none none
      (fun _ => .ok [(.bytes [111], .int 1)])
      (by simp)
      (fun t ht => Option.noConfusion ht)
      (fun cs hcs => Option.noConfusion hcs)
      (fun j hj => ⟨[(.bytes [111], .int 1)],
        [(.str ['o'], .raw (.int 1))], rfl, rfl⟩)⟩

/-- C8, amended: `send` raises EmptyQueue (`no data`) on an empty queue
whatever the other arguments; on a non-empty queue a scheduled time
earlier than 3 minutes from now raises SchedulingTooSoon; in both cases
no POST is issued and the queue is unchanged.  (The original claim did
not order the two checks: on an empty queue with a too-soon schedule the
empty-queue check fires first.) -/
theorem claim_C8_amended (st : SMSState) (now : Int) (trDate : Option Int)
    (trComment : Option (List Char))
    (oracle : Nat → Except PyError (List (PhpVal × PhpVal))) :
    (st.data = [] →
      SMS.send st now trDate trComment oracle = (.error .noData, [], st)) ∧
    (st.data ≠ [] → ∀ t, trDate = some t → t < now + 180 →
      SMS.send st now trDate trComment oracle = (.error .tooSoon, [], st)) := by
  constructor
  · intro hemp
    unfold SMS.send
    rw [if_pos hemp]
  · intro hne t ht hlt
    subst ht
    unfold SMS.send
    rw [if_neg hne]
    unfold dateFieldOf
    dsimp only
    rw [if_pos hlt]

theorem claim_C8_amended_witness :
    SMS.send ⟨"a", "b", "c", "d", []⟩ 0 none none (fun _ => .ok []) =
      (.error .noData, [], ⟨"a", "b", "c", "d", []⟩) ∧
    SMS.send ⟨"a", "b", "c", "d", [⟨['0'], [65]⟩]⟩ 1000 (some 900) none
        (fun _ => .ok []) =
      (.error .tooSoon, [], ⟨"a", "b", "c", "d", [⟨['0'], [65]⟩]⟩) :=
  ⟨(claim_C8_amended ⟨"a", "b", "c", "d", []⟩ 0 none none (fun _ => .ok [])).1 rfl,
    (claim_C8_amended ⟨"a", "b", "c", "d", [⟨['0'], [65]⟩]⟩ 1000 (some 900) none
        (fun _ => .ok [])).2 (by simp) 900 rfl (by norm_num)⟩

/-- C8, counterexample to the claim as stated: with an empty queue and a
schedule less than 3 minutes away, `send` raises EmptyQueue (`no
data`), not SchedulingTooSoon — the empty-queue check runs first. -/
theorem claim_C8_counterexample :
    (900 : Int) < 1000 + 180 ∧
    SMS.send ⟨"a", "b", "c", "d", []⟩ 1000 (some 900) none (fun _ => .ok []) =
      (.error .noData, [], ⟨"a", "b", "c", "d", []⟩) ∧
    PyError.noData ≠ PyError.tooSoon :=
  ⟨by norm_num, rfl, by decide⟩

/-- C10: whenever `send` raises — a failed POST or a failed response
decode partway through, or any earlier check — the queue is left exactly
as it was before the call (the `clear()` is never reached), and the
responses already collected are not returned: the raised error carries
none. -/
theorem claim_C10_error_state (st : SMSState) (now : Int) (trDate : Option Int)
    (trComment : Option (List Char))
    (oracle : Nat → Except PyError (List (PhpVal × PhpVal))) (e : PyError)
    (h : (SMS.send st now trDate trComment oracle).1 = .error e) :
    (SMS.send st now trDate trComment oracle).2.2 = st := by
  unfold SMS.send at h ⊢
  by_cases hemp : st.data = []
  · rw [if_pos hemp]
  · rw [if_neg hemp] at h ⊢
    cases hdF : dateFieldOf now trDate
    · rfl
    · rename_i dF
      rw [hdF] at h
      dsimp only at h ⊢
      cases hmF : msgFieldOf trComment
      · rfl
      · rename_i mF
        rw [hmF] at h
        dsimp only at h ⊢
        rcases hloop : sendLoop oracle (mkPostData st dF mF) st.data 0 with ⟨res, ps⟩
        rw [hloop] at h
        cases res with
        | ok ds =>
          dsimp only at h
          exact Except.noConfusion h
        | error err => rfl

theorem claim_C10_error_state_witness :
    (SMS.send ⟨"a", "b", "c", "d", [⟨['0'], [65]⟩]⟩ 0 none none
        (fun _ => .ok [(.bytes [255], .int 1)])).1 = .error .unicodeDecodeError ∧
    (SMS.send ⟨"a", "b", "c", "d", [⟨['0'], [65]⟩]⟩ 0 none none
        (fun _ => .ok [(.bytes [255], .int 1)])).2.2 =
      ⟨"a", "b", "c", "d", [⟨['0'], [65]⟩]⟩ :=
  ⟨rfl, claim_C10_error_state ⟨"a", "b", "c", "d", [⟨['0'], [65]⟩]⟩ 0 none none
    (fun _ => .ok [(.bytes [255], .int 1)]) .unicodeDecodeError rfl⟩

theorem digit_not_sep (c : Char) (h : isDigitChar c = true) : isSepChar c = false := by
  unfold isDigitChar at h
  unfold isSepChar isSpaceChar
  simp only [Bool.and_eq_true, decide_eq_true_eq] at h
  simp only [Bool.or_eq_false_iff, decide_eq_false_iff_not]
  omega

theorem sep_not_digit (c : Char) (h : isSepChar c = true) : isDigitChar c = false := by
  cases hd : isDigitChar c
  · rfl
  · rw [digit_not_sep c hd] at h
    exact Bool.noConfusion h

theorem matchNum2_sound (s t : List Char) (h : matchNum2 s = some t) :
    t = s ∧ allDigits s = true ∧ s.length = 4 := by
  unfold matchNum2 at h
  rcases s with _ | ⟨a, _ | ⟨b, _ | ⟨c, _ | ⟨d, _ | ⟨x, rest⟩⟩⟩⟩⟩ <;> dsimp only at h
  · exact Option.noConfusion h
  · exact Option.noConfusion h
  · exact Option.noConfusion h
  · exact Option.noConfusion h
  · split_ifs at h with hd
    · simp only [Option.some.injEq] at h
      subst h
      refine ⟨rfl, ?_, rfl⟩
      simp only [Bool.and_eq_true] at hd
      simp [allDigits, List.all, hd.1, hd.2]
  · exact Option.noConfusion h

theorem matchNum2_complete (t : List Char) (hd : allDigits t = true)
    (hl : t.length = 4) : matchNum2 t = some t := by
  rcases t with _ | ⟨a, _ | ⟨b, _ | ⟨c, _ | ⟨d, _ | ⟨x, rest⟩⟩⟩⟩⟩ <;>
    simp only [List.length_nil, List.length_cons] at hl <;> try omega
  simp only [allDigits, List.all_cons, List.all_nil, Bool.and_eq_true, and_true] at hd
  unfold matchNum2
  dsimp only
  rw [if_pos]
  simp [hd.1, hd.2.1, hd.2.2.1, hd.2.2.2]

theorem matchSepNum2_sound (s t : List Char) (h : matchSepNum2 s = some t) :
    ∃ b, s = b ++ t ∧ sepOpt b ∧ allDigits t = true ∧ t.length = 4 := by
  unfold matchSepNum2 at h
  cases s with
  | nil => exact Option.noConfusion h
  | cons c rest =>
    dsimp only at h
    split_ifs at h with hsep
    · cases hm : matchNum2 rest <;> rw [hm] at h
      · obtain ⟨rfl, hd, hl⟩ := matchNum2_sound (c :: rest) t h
        exact ⟨[], rfl, Or.inl rfl, hd, hl⟩
      · rename_i t0
        simp only [Option.some.injEq] at h
        subst h
        obtain ⟨rfl, hd, hl⟩ := matchNum2_sound rest t0 hm
        exact ⟨[c], rfl, Or.inr ⟨c, hsep, rfl⟩, hd, hl⟩
    · obtain ⟨rfl, hd, hl⟩ := matchNum2_sound (c :: rest) t h
      exact ⟨[], rfl, Or.inl rfl, hd, hl⟩

theorem matchSepNum2_complete (b t : List Char) (hb : sepOpt b)
    (hd : allDigits t = true) (hl : t.length = 4) :
    matchSepNum2 (b ++ t) = some t := by
  have hnum := matchNum2_complete t hd hl
  have htne : t ≠ [] := by
    intro hcc
    rw [hcc] at hl
    exact absurd hl (by simp)
  rcases hb with rfl | ⟨c, hc, rfl⟩
  · rcases t with _ | ⟨t1, trest⟩
    · exact absurd rfl htne
    · have ht1 : isDigitChar t1 = true := by
        simp only [allDigits, List.all_cons, Bool.and_eq_true] at hd
        exact hd.1
      rw [List.nil_append]
      unfold matchSepNum2
      dsimp only
      rw [if_neg (by rw [digit_not_sep t1 ht1]; exact Bool.noConfusion)]
      exact hnum
  · rw [List.singleton_append]
    unfold matchSepNum2
    dsimp only
    rw [if_pos hc, hnum]

theorem matchNum1Try3_sound (s n1 n2 : List Char)
    (h : matchNum1Try3 s = some (n1, n2)) :
    ∃ b, s = n1 ++ (b ++ n2) ∧ allDigits n1 = true ∧ n1.length = 3 ∧
      sepOpt b ∧ allDigits n2 = true ∧ n2.length = 4 := by
  unfold matchNum1Try3 at h
  rcases s with _ | ⟨a, _ | ⟨b, _ | ⟨c, rest⟩⟩⟩ <;> dsimp only at h
  · exact Option.noConfusion h
  · exact Option.noConfusion h
  · exact Option.noConfusion h
  · split_ifs at h with hd
    cases hm : matchSepNum2 rest <;> rw [hm] at h
    · exact Option.noConfusion h
    · rename_i t0
      simp only [Option.some.injEq, Prod.mk.injEq] at h
      obtain ⟨rfl, rfl⟩ := h
      obtain ⟨bsep, rfl, hbs, hdt, hlt⟩ := matchSepNum2_sound rest t0 hm
      simp only [Bool.and_eq_true] at hd
      refine ⟨bsep, rfl, ?_, rfl, hbs, hdt, hlt⟩
      simp [allDigits, hd.1.1, hd.1.2, hd.2]

theorem matchNum1Rest_sound (s n1 n2 : List Char)
    (h : matchNum1Rest s = some (n1, n2)) :
    ∃ b, s = n1 ++ (b ++ n2) ∧ allDigits n1 = true ∧
      (n1.length = 3 ∨ n1.length = 4) ∧
      sepOpt b ∧ allDigits n2 = true ∧ n2.length = 4 := by
  unfold matchNum1Rest at h
  rcases s with _ | ⟨a, _ | ⟨b, _ | ⟨c, _ | ⟨d, rest⟩⟩⟩⟩ <;> dsimp only at h
  · obtain ⟨bb, h1, h2, h3, h4, h5, h6⟩ := matchNum1Try3_sound _ n1 n2 h
    exact ⟨bb, h1, h2, Or.inl h3, h4, h5, h6⟩
  · obtain ⟨bb, h1, h2, h3, h4, h5, h6⟩ := matchNum1Try3_sound _ n1 n2 h
    exact ⟨bb, h1, h2, Or.inl h3, h4, h5, h6⟩
  · obtain ⟨bb, h1, h2, h3, h4, h5, h6⟩ := matchNum1Try3_sound _ n1 n2 h
    exact ⟨bb, h1, h2, Or.inl h3, h4, h5, h6⟩
  · obtain ⟨bb, h1, h2, h3, h4, h5, h6⟩ := matchNum1Try3_sound _ n1 n2 h
    exact ⟨bb, h1, h2, Or.inl h3, h4, h5, h6⟩
  · split_ifs at h with hd
    · cases hm : matchSepNum2 rest <;> rw [hm] at h
      · obtain ⟨bb, h1, h2, h3, h4, h5, h6⟩ := matchNum1Try3_sound _ n1 n2 h
        exact ⟨bb, h1, h2, Or.inl h3, h4, h5, h6⟩
      · rename_i t0
        simp only [Option.some.injEq, Prod.mk.injEq] at h
        obtain ⟨rfl, rfl⟩ := h
        obtain ⟨bsep, rfl, hbs, hdt, hlt⟩ := matchSepNum2_sound rest t0 hm
        simp only [Bool.and_eq_true] at hd
        refine ⟨bsep, rfl, ?_, Or.inr rfl, hbs, hdt, hlt⟩
        simp [allDigits, hd.1.1.1, hd.1.1.2, hd.1.2, hd.2]
    · obtain ⟨bb, h1, h2, h3, h4, h5, h6⟩ := matchNum1Try3_sound _ n1 n2 h
      exact ⟨bb, h1, h2, Or.inl h3, h4, h5, h6⟩

theorem matchNum1Try3_complete (m b t : List Char) (hm : allDigits m = true)
    (hl : m.length = 3) (hb : sepOpt b) (ht : allDigits t = true)
    (htl : t.length = 4) : matchNum1Try3 (m ++ (b ++ t)) = some (m, t) := by
  rcases m with _ | ⟨m1, _ | ⟨m2, _ | ⟨m3, _ | ⟨x, r⟩⟩⟩⟩ <;>
    simp only [List.length_nil, List.length_cons] at hl <;> try omega
  simp only [allDigits, List.all_cons, List.all_nil, Bool.and_eq_true, and_true] at hm
  simp only [List.cons_append, List.nil_append]
  unfold matchNum1Try3
  dsimp only
  rw [if_pos (by simp [hm.1, hm.2.1, hm.2.2]), matchSepNum2_complete b t hb ht htl]

theorem matchNum1Rest_complete (m b t : List Char) (hm : allDigits m = true)
    (hl : m.length = 3 ∨ m.length = 4) (hb : sepOpt b) (ht : allDigits t = true)
    (htl : t.length = 4) : (matchNum1Rest (m ++ (b ++ t))).isSome = true := by
  rcases hl with hl | hl
  · have htry := matchNum1Try3_complete m b t hm hl hb ht htl
    rcases m with _ | ⟨m1, _ | ⟨m2, _ | ⟨m3, _ | ⟨x, r⟩⟩⟩⟩ <;>
      simp only [List.length_nil, List.length_cons] at hl <;> try omega
    simp only [allDigits, List.all_cons, List.all_nil, Bool.and_eq_true, and_true] at hm
    rcases hb with rfl | ⟨c, hc, rfl⟩
    · rcases t with _ | ⟨t1, _ | ⟨t2, _ | ⟨t3, _ | ⟨t4, _ | ⟨y, r2⟩⟩⟩⟩⟩ <;>
        simp only [List.length_nil, List.length_cons] at htl <;> try omega
      simp only [allDigits, List.all_cons, List.all_nil, Bool.and_eq_true, and_true] at ht
      simp only [List.cons_append, List.nil_append] at htry ⊢
      unfold matchNum1Rest
      dsimp only
      have hsepnone : matchSepNum2 [t2, t3, t4] = none := by
        unfold matchSepNum2
        dsimp only
        rw [if_neg (by rw [digit_not_sep t2 ht.2.1]; exact Bool.noConfusion)]
        rfl
      rw [if_pos (by simp [hm.1, hm.2.1, hm.2.2, ht.1]), hsepnone, htry]
      rfl
    · simp only [List.cons_append, List.nil_append, List.singleton_append] at htry ⊢
      unfold matchNum1Rest
      dsimp only
      rw [if_neg (by simp [sep_not_digit c hc]), htry]
      rfl
  · rcases m with _ | ⟨m1, _ | ⟨m2, _ | ⟨m3, _ | ⟨m4, _ | ⟨x, r⟩⟩⟩⟩⟩ <;>
      simp only [List.length_nil, List.length_cons] at hl <;> try omega
    simp only [allDigits, List.all_cons, List.all_nil, Bool.and_eq_true, and_true] at hm
    simp only [List.cons_append, List.nil_append]
    unfold matchNum1Rest
    dsimp only
    rw [if_pos (by simp [hm.1, hm.2.1, hm.2.2.1, hm.2.2.2]),
      matchSepNum2_complete b t hb ht htl]
    rfl

theorem matchAfterPre_sound (s n1 n2 : List Char)
    (h : matchAfterPre s = some (n1, n2)) :
    ∃ a b, s = a ++ (n1 ++ (b ++ n2)) ∧ sepOpt a ∧
      allDigits n1 = true ∧ (n1.length = 3 ∨ n1.length = 4) ∧
      sepOpt b ∧ allDigits n2 = true ∧ n2.length = 4 := by
  unfold matchAfterPre at h
  cases s with
  | nil => exact Option.noConfusion h
  | cons c rest =>
    dsimp only at h
    split_ifs at h with hsep
    · cases hm : matchNum1Rest rest <;> rw [hm] at h
      · obtain ⟨bb, h1, h2, h3, h4, h5, h6⟩ := matchNum1Rest_sound (c :: rest) n1 n2 h
        exact ⟨[], bb, by simpa using h1, Or.inl rfl, h2, h3, h4, h5, h6⟩
      · rename_i r0
        simp only [Option.some.injEq] at h
        subst h
        obtain ⟨bb, h1, h2, h3, h4, h5, h6⟩ := matchNum1Rest_sound rest n1 n2 hm
        exact ⟨[c], bb, by simp [h1], Or.inr ⟨c, hsep, rfl⟩, h2, h3, h4, h5, h6⟩
    · obtain ⟨bb, h1, h2, h3, h4, h5, h6⟩ := matchNum1Rest_sound (c :: rest) n1 n2 h
      exact ⟨[], bb, by simpa using h1, Or.inl rfl, h2, h3, h4, h5, h6⟩

theorem matchAfterPre_complete (a m b t : List Char) (ha : sepOpt a)
    (hm : allDigits m = true) (hl : m.length = 3 ∨ m.length = 4) (hb : sepOpt b)
    (ht : allDigits t = true) (htl : t.length = 4) :
    (matchAfterPre (a ++ (m ++ (b ++ t)))).isSome = true := by
  have hrest := matchNum1Rest_complete m b t hm hl hb ht htl
  rcases ha with rfl | ⟨c, hc, rfl⟩
  · have hmne : m ≠ [] := by
      intro hcc
      rw [hcc] at hl
      simp at hl
    rcases m with _ | ⟨m1, mr⟩
    · exact absurd rfl hmne
    · have hm1 : isDigitChar m1 = true := by
        simp only [allDigits, List.all_cons, Bool.and_eq_true] at hm
        exact hm.1
      simp only [List.nil_append, List.cons_append] at hrest ⊢
      unfold matchAfterPre
      dsimp only
      rw [if_neg (by rw [digit_not_sep m1 hm1]; exact Bool.noConfusion)]
      exact hrest
  · simp only [List.singleton_append] at hrest ⊢
    unfold matchAfterPre
    dsimp only
    rw [if_pos hc]
    cases hr : matchNum1Rest (m ++ (b ++ t)) <;> rw [hr] at hrest
    · exact absurd hrest (by simp)
    · rename_i r0
      rfl

theorem matchNoPre_sound (s : List Char) (n0 : Option (List Char))
    (n1 n2 : List Char) (h : matchNoPre s = some (n0, n1, n2)) :
    n0 = none ∧ matchAfterPre s = some (n1, n2) := by
  unfold matchNoPre at h
  cases hm : matchAfterPre s <;> rw [hm] at h
  · exact Option.noConfusion h
  · rename_i r0
    simp only [Option.some.injEq, Prod.mk.injEq] at h
    obtain ⟨h0, hx, hy⟩ := h
    refine ⟨h0.symm, ?_⟩
    rw [show r0 = (n1, n2) from Prod.ext hx hy]

theorem matchNoPre_isSome (s : List Char)
    (h : (matchAfterPre s).isSome = true) : (matchNoPre s).isSome = true := by
  unfold matchNoPre
  cases hm : matchAfterPre s <;> rw [hm] at h
  · exact absurd h (by simp)
  · rfl

theorem matchPatternNum_sound (s : List Char) (n0 : Option (List Char))
    (n1 n2 : List Char) (h : matchPatternNum s = some (n0, n1, n2)) :
    (n0 = none ∨ ∃ d, isDigitChar d = true ∧ n0 = some ['0', d, '0']) ∧
    allDigits n1 = true ∧ (n1.length = 3 ∨ n1.length = 4) ∧
    allDigits n2 = true ∧ n2.length = 4 ∧
    specNumberFormat s := by
  have noPreCase : ∀ s2 : List Char, matchNoPre s2 = some (n0, n1, n2) →
      (n0 = none ∨ ∃ d, isDigitChar d = true ∧ n0 = some ['0', d, '0']) ∧
      allDigits n1 = true ∧ (n1.length = 3 ∨ n1.length = 4) ∧
      allDigits n2 = true ∧ n2.length = 4 ∧
      specNumberFormat s2 := by
    intro s2 h2
    obtain ⟨hn0, hafter⟩ := matchNoPre_sound s2 n0 n1 n2 h2
    obtain ⟨a, bb, h1, ha, hd1, hl1, hbb, hd2, hl2⟩ :=
      matchAfterPre_sound s2 n1 n2 hafter
    exact ⟨Or.inl hn0, hd1, hl1, hd2, hl2,
      [], a, n1, bb, n2, by simpa using h1, Or.inl rfl, ha, hd1, hl1, hbb, hd2, hl2⟩
  unfold matchPatternNum at h
  rcases s with _ | ⟨c1, _ | ⟨c2, _ | ⟨c3, rest⟩⟩⟩ <;> dsimp only at h
  · exact noPreCase [] h
  · exact noPreCase [c1] h
  · exact noPreCase [c1, c2] h
  · split_ifs at h with hpre
    · obtain ⟨hc1, hc3, hc2⟩ := hpre
      subst hc1
      subst hc3
      cases hm : matchAfterPre rest <;> rw [hm] at h
      · exact noPreCase ('0' :: c2 :: '0' :: rest) h
      · rename_i r0
        simp only [Option.some.injEq, Prod.mk.injEq] at h
        obtain ⟨h0, hx, hy⟩ := h
        subst h0
        obtain ⟨a, bb, h1, ha, hd1, hl1, hbb, hd2, hl2⟩ :=
          matchAfterPre_sound rest n1 n2
            (by rw [hm, show r0 = (n1, n2) from Prod.ext hx hy])
        refine ⟨Or.inr ⟨c2, hc2, rfl⟩, hd1, hl1, hd2, hl2,
          ['0', c2, '0'], a, n1, bb, n2, ?_, Or.inr ⟨c2, hc2, rfl⟩, ha, hd1, hl1,
          hbb, hd2, hl2⟩
        rw [h1]
        rfl
    · exact noPreCase (c1 :: c2 :: c3 :: rest) h

theorem matchPatternNum_isSome_of_after (s : List Char)
    (h : (matchAfterPre s).isSome = true) : (matchPatternNum s).isSome = true := by
  unfold matchPatternNum
  rcases s with _ | ⟨c1, _ | ⟨c2, _ | ⟨c3, rest⟩⟩⟩ <;> dsimp only
  · exact matchNoPre_isSome [] h
  · exact matchNoPre_isSome [c1] h
  · exact matchNoPre_isSome [c1, c2] h
  · split_ifs with hpre
    · cases hm : matchAfterPre rest
      · exact matchNoPre_isSome _ h
      · rfl
    · exact matchNoPre_isSome _ h

theorem matchPatternNum_complete (s : List Char) (hs : specNumberFormat s) :
    (matchPatternNum s).isSome = true := by
  obtain ⟨p, a, m, b, t, rfl, hp, ha, hm, hml, hb, ht, htl⟩ := hs
  have hafter := matchAfterPre_complete a m b t ha hm hml hb ht htl
  rcases hp with rfl | ⟨d, hd, rfl⟩
  · rw [List.nil_append]
    exact matchPatternNum_isSome_of_after _ hafter
  · simp only [List.cons_append, List.nil_append]
    unfold matchPatternNum
    dsimp only
    rw [if_pos ⟨rfl, rfl, hd⟩]
    cases hm2 : matchAfterPre (a ++ (m ++ (b ++ t))) <;> rw [hm2] at hafter
    · exact absurd hafter (by simp)
    · rfl

/-- C5, amended: the number normalizer succeeds exactly on the input
strings whose whitespace-stripped form consists of an optional 3-digit
prefix `0`, any digit, `0` (the code's `0\d0`: the claim left the third
digit unconstrained), an optional whitespace/dash/dot separator, a group
of 3-4 digits, another optional separator and a group of 4 digits; it
fails with an InvalidNumber error on every other input. -/
theorem claim_C5_amended (trTo : List Char) :
    (∃ r, validTrTo trTo = .ok r) ↔ specNumberFormat (pyStrip trTo) := by
  constructor
  · rintro ⟨r, hr⟩
    unfold validTrTo at hr
    cases hm : matchPatternNum (pyStrip trTo) <;> rw [hm] at hr
    · exact Except.noConfusion hr
    · rename_i g
      obtain ⟨n0, n1, n2⟩ := g
      exact (matchPatternNum_sound _ n0 n1 n2 hm).2.2.2.2.2
  · intro hs
    have hsome := matchPatternNum_complete _ hs
    unfold validTrTo
    cases hm : matchPatternNum (pyStrip trTo) <;> rw [hm] at hsome
    · exact absurd hsome (by simp)
    · rename_i g
      obtain ⟨n0, n1, n2⟩ := g
      exact ⟨_, rfl⟩

/-- C5, counterexample to the claim as stated: `0111111111` matches the
pattern the claim describes (3-digit prefix starting with `0` followed
by any middle digit — here `011` — then a 3-digit group and a 4-digit
group), yet the normalizer rejects it, because the code's prefix group
`0\d0` also requires the third digit to be `0`. -/
theorem claim_C5_counterexample :
    claimNumberFormat (pyStrip "0111111111".toList) ∧
    validTrTo "0111111111".toList =
      .error (.invalidNumber "0111111111".toList) := by
  constructor
  · refine ⟨['0', '1', '1'], [], ['1', '1', '1'], [], ['1', '1', '1', '1'],
      rfl, Or.inr ⟨'1', '1', rfl, rfl, rfl⟩, Or.inl rfl, rfl, Or.inl rfl,
      Or.inl rfl, rfl, rfl⟩
  · rfl

/-- C9: whenever the normalizer accepts an input, its result is the
matched prefix group (`010` when absent), the matched 3-4 digit middle
group and the matched 4-digit final group, joined by dashes. -/
theorem claim_C9_canonical (trTo r : List Char) (h : validTrTo trTo = .ok r) :
    ∃ n0 n1 n2, matchPatternNum (pyStrip trTo) = some (n0, n1, n2) ∧
      r = (n0.getD ['0', '1', '0']) ++ '-' :: (n1 ++ '-' :: n2) ∧
      (n0 = none ∨ ∃ d, isDigitChar d = true ∧ n0 = some ['0', d, '0']) ∧
      allDigits n1 = true ∧ (n1.length = 3 ∨ n1.length = 4) ∧
      allDigits n2 = true ∧ n2.length = 4 := by
  unfold validTrTo at h
  cases hm : matchPatternNum (pyStrip trTo) <;> rw [hm] at h
  · exact Except.noConfusion h
  · rename_i g
    obtain ⟨n0, n1, n2⟩ := g
    dsimp only at h
    simp only [Except.ok.injEq] at h
    have hs := matchPatternNum_sound _ n0 n1 n2 hm
    exact ⟨n0, n1, n2, rfl, h.symm, hs.1, hs.2.1, hs.2.2.1, hs.2.2.2.1,
      hs.2.2.2.2.1⟩

theorem claim_C9_canonical_witness :
    validTrTo "01012345678".toList = .ok "010-1234-5678".toList ∧
    ∃ n0 n1 n2,
      matchPatternNum (pyStrip "01012345678".toList) = some (n0, n1, n2) ∧
      "010-1234-5678".toList = (n0.getD ['0', '1', '0']) ++ '-' :: (n1 ++ '-' :: n2) ∧
      (n0 = none ∨ ∃ d, isDigitChar d = true ∧ n0 = some ['0', d, '0']) ∧
      allDigits n1 = true ∧ (n1.length = 3 ∨ n1.length = 4) ∧
      allDigits n2 = true ∧ n2.length = 4 :=
  ⟨rfl, claim_C9_canonical "01012345678".toList "010-1234-5678".toList rfl⟩
